import Mathlib

/-!
Verification development for the script `scripts/new_python_based_image.py`.

Strings are embedded as `List Char` (one Python `str` character per list
entry).  Python's `str.replace`, `in` (substring test), `startswith` and
`split` are embedded as executable Lean functions below; the script's
functions are then translated over those primitives.  The filesystem is
embedded two ways, matching what each function of the script touches:
a directory tree (`CTree`) for the `os.walk` based functions, and a flat
map from file paths to file contents for `copy_paths` and the
orchestration in `main`.
-/

namespace NPBI

/-- Strings of the Python script, one `Char` per Python character. -/
abbrev Str := List Char

/-- Embedding of Python `needle.startswith`/prefix testing on strings:
`strHasPre p s` is true when `p` is a prefix of `s`. -/
def strHasPre : Str → Str → Bool
  | [], _ => true
  | _ :: _, [] => false
  | a :: p, b :: s => a = b && strHasPre p s

/-- Embedding of Python's substring operator `n in h`. -/
def strHasSub (n : Str) : Str → Bool
  | [] => n.isEmpty
  | c :: t => strHasPre n (c :: t) || strHasSub n t

/-- Worker for the embedding of Python `s.replace(old, new)`: scan left to
right; whenever `old` is a prefix of the remaining input, emit `new` and
skip past the occurrence, else emit one character.  The scan consumes at
least one input character per step, so `s.length` fuel always suffices;
the fuel only makes the recursion structural. -/
def pyReplaceF : Nat → Str → Str → Str → Str
  | _, [], _, _ => []
  | 0, s, _, _ => s
  | fuel + 1, c :: rest, old, new =>
    if strHasPre old (c :: rest) = true ∧ old ≠ []
    then new ++ pyReplaceF fuel (List.drop (old.length - 1) rest) old new
    else c :: pyReplaceF fuel rest old new

/-- Embedding of Python `s.replace(old, new)`: replace every occurrence of
`old` in `s` by `new`, scanning left to right, non-overlapping.  (Python's
behaviour for an empty `old` — inserting `new` at every gap — is not
reproduced; every pattern the script passes here is non-empty.) -/
def pyReplace (s old new : Str) : Str := pyReplaceF s.length s old new

/-- Embedding of Python `s.split(sep)` for a one-character separator. -/
def splitOnChar (sep : Char) : Str → List Str
  | [] => [[]]
  | c :: rest =>
    if c = sep then [] :: splitOnChar sep rest
    else
      match splitOnChar sep rest with
      | [] => [[c]]
      | x :: xs => (c :: x) :: xs

/-- `os.path.join(a, b)` on Linux for a path `a` not ending in a slash. -/
def pathJoin (a b : Str) : Str := a ++ '/' :: b

/-- The file name `Dockerfile`. -/
def dockerfileName : Str := ['D', 'o', 'c', 'k', 'e', 'r', 'f', 'i', 'l', 'e']

/-- The file-name prefix `Pipfile`. -/
def pipfilePre : Str := ['P', 'i', 'p', 'f', 'i', 'l', 'e']

/-- The word `lock`. -/
def lockStr : Str := ['l', 'o', 'c', 'k']

/-- The pattern prefix `python-`. -/
def pythonPre : Str := ['p', 'y', 't', 'h', 'o', 'n', '-']

/-- The pattern prefix `py`. -/
def pyPre : Str := ['p', 'y']

/-- The directory names excluded by `find_matching_paths`. -/
def blockSegs : List Str :=
  [['.', 'g', 'i', 't'],
   ['.', 'g', 'i', 't', 'h', 'u', 'b'],
   ['c', 'i'],
   ['d', 'o', 'c', 's'],
   ['m', 'a', 'n', 'i', 'f', 'e', 's', 't', 's'],
   ['s', 'c', 'r', 'i', 'p', 't', 's'],
   ['t', 'e', 's', 't', 's']]

/-- `[os.path.join(".", path) for path in [...]]` of `find_matching_paths`:
each excluded name prefixed as `./name`. -/
def blocklist : List Str := blockSegs.map (pathJoin ['.'])

/-- `extract_python_version`: `version.split(".")[:2]`. -/
def extract_python_version (version : Str) : List Str :=
  (splitOnChar '.' version).take 2

/-- The four sequential substitutions of `replace_python_version_in_content`,
after the major/minor components of both versions have been extracted:
dotted (the version strings themselves), dashed, `python-`-concatenated and
`py`-concatenated. -/
def rewriteSeq (source_version target_version sM sm tM tm : Str) (content : Str) : Str :=
  let r1 := pyReplace content source_version target_version
  let r2 := pyReplace r1 (sM ++ '-' :: sm) (tM ++ '-' :: tm)
  let r3 := pyReplace r2 (pythonPre ++ sM ++ sm) (pythonPre ++ tM ++ tm)
  pyReplace r3 (pyPre ++ sM ++ sm) (pyPre ++ tM ++ tm)

/-- `replace_python_version_in_content`.  The Python function destructures
`extract_python_version(...)` into exactly two components and raises
otherwise; the failure is embedded as `none`. -/
def replace_python_version_in_content (content source_version target_version : Str) :
    Option Str :=
  match extract_python_version source_version, extract_python_version target_version with
  | [sM, sm], [tM, tm] =>
    some (rewriteSeq source_version target_version sM sm tM tm content)
  | _, _ => none

/-- `replace_python_version_on_paths`: a dict comprehension mapping each
path to `path.replace(source_version, target_version)` (embedded as an
association list in iteration order; the keys handed to it by `main` are
distinct). -/
def replace_python_version_on_paths (paths_list : List Str)
    (source_version target_version : Str) : List (Str × Str) :=
  paths_list.map fun path => (path, pyReplace path source_version target_version)

/-! ### Directory trees

A directory of the filesystem is a list of files (name and textual
content) together with a forest of named subdirectories.  A forest is one
inductive type: `fcons name files subs rest` is a directory entry `name`
holding files `files` and child forest `subs`, followed by its sibling
entries `rest`.  `os.walk` visits a directory before its children and
iterates children in list order. -/

inductive FTree : Type where
  | fnil
  | fcons (name : Str) (files : List (Str × Str)) (subs : FTree) (rest : FTree)

/-- One directory test of the `find_matching_paths` loop body, for the
directory at `path` with immediate file list `files`: the root is recorded
exactly when its path contains both the version and the match substring,
has a `Dockerfile` among its immediate files, and was not already recorded
(the Python `processed_dirs` set always holds exactly the recorded
paths). -/
def visitDir (path : Str) (files : List (Str × Str)) (acc : List Str) : List Str :=
  if dockerfileName ∈ files.map Prod.fst ∧ path ∉ acc then acc ++ [path] else acc

/-- The walk of `find_matching_paths` below a directory `parent`, mirroring
the `os.walk(context_dir)` loop: a visited directory whose path contains a
blocklist entry is skipped together with its whole subtree
(`dirs[:] = []; continue`); a directory containing both the version and
the match substrings is tested for a `Dockerfile` and its subtree is
pruned in either case (`dirs[:] = []`); otherwise the walk descends.
Siblings are walked afterwards in order, as `os.walk` does. -/
def walkForest (sv mt parent : Str) (f : FTree) (acc : List Str) : List Str :=
  match f with
  | .fnil => acc
  | .fcons name files subs rest =>
    let path := pathJoin parent name
    let acc1 :=
      if (blocklist.any fun b => strHasSub b path) = true then acc
      else if strHasSub sv path = true ∧ strHasSub mt path = true then
        visitDir path files acc
      else walkForest sv mt path subs acc
    walkForest sv mt parent rest acc1

/-- `find_matching_paths(context_dir, source_version, match)` over the
directory `context_dir` with immediate files `files` and subdirectory
forest `subs`, including the visit of `context_dir` itself (the first
`os.walk` iteration) and the final
`[p for p in matching_paths if source_version in p]` filter. -/
def find_matching_paths (context_dir : Str) (files : List (Str × Str)) (subs : FTree)
    (source_version mt : Str) : List Str :=
  let walked :=
    if (blocklist.any fun b => strHasSub b context_dir) = true then []
    else if strHasSub source_version context_dir = true ∧
        strHasSub mt context_dir = true then
      visitDir context_dir files []
    else walkForest source_version mt context_dir subs []
  walked.filter fun p => strHasSub source_version p

/-- All directories of a forest, as (path, immediate file names) pairs. -/
def dirsAtForest (parent : Str) : FTree → List (Str × List Str)
  | .fnil => []
  | .fcons name files subs rest =>
    (pathJoin parent name, files.map Prod.fst) ::
      (dirsAtForest (pathJoin parent name) subs ++ dirsAtForest parent rest)

/-- All files of a forest: (path segments from the forest root down to the
containing directory, file name, content). -/
def filesOfForest : FTree → List (List Str × Str × Str)
  | .fnil => []
  | .fcons name files subs rest =>
    (files.map fun p => ([name], p.1, p.2)) ++
      ((filesOfForest subs).map fun x => (name :: x.1, x.2)) ++
      filesOfForest rest

/-- The in-place renaming walk of `replace_version_in_directory` below the
processed root.  The Python function walks `os.walk(..., topdown=False)`
bottom-up: all files and subdirectories of a directory are renamed (and
file contents rewritten) while the directory''s own original path is still
valid, and only afterwards is the directory itself renamed by its parent''s
iteration; the root directory itself is never renamed.  On the forest this
is exactly the structural recursion below, with `rw` the rewriting applied
to every file name, file content and directory name. -/
def forestRewrite (rw : Str → Str) : FTree → FTree
  | .fnil => .fnil
  | .fcons name files subs rest =>
    .fcons (rw name) (files.map fun p => (rw p.1, rw p.2))
      (forestRewrite rw subs) (forestRewrite rw rest)

/-- `replace_version_in_directory(directory_path, source_version,
target_version)` for the directory with immediate files `files` and
subdirectory forest `subs`: every file name, file content and directory
name below the root is rewritten; the root''s own name is left alone, as in
the source. -/
def replace_version_in_directory (files : List (Str × Str)) (subs : FTree)
    (source_version target_version : Str) : Option (List (Str × Str) × FTree) :=
  match extract_python_version source_version, extract_python_version target_version with
  | [sM, sm], [tM, tm] =>
    let rw := rewriteSeq source_version target_version sM sm tM tm
    some (files.map fun p => (rw p.1, rw p.2), forestRewrite rw subs)
  | _, _ => none

/-- No duplicates in a list of strings. -/
def nodupStrs : List Str → Bool
  | [] => true
  | x :: xs => !(xs.contains x) && nodupStrs xs

/-- The names of the immediate entries of a forest (sibling chain). -/
def siblingNames : FTree → List Str
  | .fnil => []
  | .fcons name _ _ rest => name :: siblingNames rest

/-- Well-formedness of a forest as a filesystem: within each directory the
file names and subdirectory names are pairwise distinct (in a real
filesystem two entries of one directory cannot share a name; `os.rename`
onto an existing entry would otherwise clobber it). -/
def forestOk : FTree → Bool
  | .fnil => true
  | .fcons _ files subs rest =>
    nodupStrs (files.map Prod.fst ++ siblingNames subs) && forestOk subs && forestOk rest

/-- The file-name test of `process_pipfiles`:
`file_name.startswith("Pipfile") and "lock" not in file_name`. -/
def isPipfileName (nm : Str) : Bool :=
  strHasPre pipfilePre nm && !(strHasSub lockStr nm)

/-- One directory''s worth of `pipenv lock` invocations, in file order.
`lockOk` is the external `run_pipenv_lock` outcome per Pipfile path. -/
def lockFiles (lockOk : Str → Bool) (path : Str) : List (Str × Str) → List Str × List Str
  | [] => ([], [])
  | f :: rest =>
    let r := lockFiles lockOk path rest
    if isPipfileName f.1 = true then
      let p := pathJoin path f.1
      if lockOk p = true then (p :: r.1, r.2) else (r.1, p :: r.2)
    else r

/-- The subtree part of `process_pipfiles`: walk the forest in `os.walk`
order and run `pipenv lock` on every file whose name starts with `Pipfile`
and does not contain `lock`, partitioning Pipfile paths by outcome. -/
def process_pipfiles_forest (lockOk : Str → Bool) (parent : Str) (f : FTree) :
    List Str × List Str :=
  match f with
  | .fnil => ([], [])
  | .fcons name files subs rest =>
    let here := lockFiles lockOk (pathJoin parent name) files
    let deeper := process_pipfiles_forest lockOk (pathJoin parent name) subs
    let sib := process_pipfiles_forest lockOk parent rest
    (here.1 ++ deeper.1 ++ sib.1, here.2 ++ deeper.2 ++ sib.2)

/-- `process_pipfiles(path, target_version)` for the directory `path` with
immediate files `files` and subdirectory forest `subs`.  The external
command is abstracted by the oracle `lockOk`. -/
def process_pipfiles (lockOk : Str → Bool) (path : Str) (files : List (Str × Str))
    (subs : FTree) : List Str × List Str :=
  let here := lockFiles lockOk path files
  let deeper := process_pipfiles_forest lockOk path subs
  (here.1 ++ deeper.1, here.2 ++ deeper.2)

/-- Root path extended by a list of path segments. -/
def joinSegs (path : Str) (segs : List Str) : Str := segs.foldl pathJoin path

/-- Path-wise characterisation of the files `process_pipfiles` targets
below the root: every file of the forest whose name starts with `Pipfile`
and does not contain `lock`, at its full path. -/
def pipTargets (path : Str) (f : FTree) : List Str :=
  (filesOfForest f).filterMap fun x =>
    if isPipfileName x.2.1 = true then some (pathJoin (joinSegs path x.1) x.2.1) else none

/-! ### Flat filesystem maps

For `copy_paths` and the orchestration in `main` the filesystem is a
finite map from file paths to file contents (association list in creation
order).  Directories are visible only through the files beneath them. -/

/-- A flat filesystem: file path to content. -/
abbrev FSm := List (Str × Str)

/-- `os.path.exists(q)`: `q` is a file, or a directory holding some file. -/
def pathExists (fs : FSm) (q : Str) : Bool :=
  fs.any fun e => e.1 == q || strHasPre (q ++ ['/']) e.1

/-- `copy_paths(paths_dict)` over a flat filesystem.  Per mapping, in dict
order: an existing destination is recorded as failed with no copy; else the
source subtree is copied (`shutil.copytree`), and a `copytree` error — here,
the source directory holding no files — is recorded as failed. -/
def copy_paths (paths_dict : List (Str × Str)) (fs : FSm) : List Str × List Str × FSm :=
  match paths_dict with
  | [] => ([], [], fs)
  | (src, dst) :: rest =>
    if pathExists fs dst = true then
      let r := copy_paths rest fs
      (r.1, dst :: r.2.1, r.2.2)
    else if (fs.any fun e => strHasPre (src ++ ['/']) e.1) = true then
      let copied := (fs.filter fun e => strHasPre (src ++ ['/']) e.1).map
        fun e => (dst ++ List.drop src.length e.1, e.2)
      let r := copy_paths rest (fs ++ copied)
      (dst :: r.1, r.2.1, r.2.2)
    else
      let r := copy_paths rest fs
      (r.1, dst :: r.2.1, r.2.2)

/-- Join path segments with `/`. -/
def joinDirs : List Str → Str
  | [] => []
  | [x] => x
  | x :: xs => x ++ '/' :: joinDirs xs

/-- `replace_version_in_directory` on a flat filesystem: every path segment
strictly below `root` is renamed through `rw`, and every file content below
`root` is rewritten through `rw` (a version string contains no `/`, so a
pattern never spans two path segments). -/
def rewriteUnder (rw : Str → Str) (root : Str) (fs : FSm) : FSm :=
  fs.map fun e =>
    if strHasPre (root ++ ['/']) e.1 = true then
      (root ++ '/' :: joinDirs ((splitOnChar '/' (List.drop (root.length + 1) e.1)).map rw),
       rw e.2)
    else e

/-- The last path segment (`os.walk` hands `process_pipfiles` bare file
names; on the flat filesystem the name is recovered from the path). -/
def lastSeg (p : Str) : Str := (splitOnChar '/' p).getLastD []

/-- `process_pipfiles` over a flat filesystem: every file below `root`
whose name passes `isPipfileName` gets a `pipenv lock` invocation. -/
def process_pipfiles_fs (lockOk : Str → Bool) (root : Str) : FSm → List Str × List Str
  | [] => ([], [])
  | e :: rest =>
    let r := process_pipfiles_fs lockOk root rest
    if strHasPre (root ++ ['/']) e.1 = true ∧ isPipfileName (lastSeg e.1) = true then
      if lockOk e.1 = true then (e.1 :: r.1, r.2) else (r.1, e.1 :: r.2)
    else r

/-- `process_paths(copied_paths, ...)`: per copied path, skip it when it no
longer exists, otherwise rewrite the tree below it in place and run the
Pipfile locking; success/failure lists accumulate across paths. -/
def process_paths_fs (lockOk : Str → Bool) (rw : Str → Str) (copied : List Str) (fs : FSm) :
    List Str × List Str × FSm :=
  match copied with
  | [] => ([], [], fs)
  | p :: rest =>
    if pathExists fs p = true then
      let fs1 := rewriteUnder rw p fs
      let r0 := process_pipfiles_fs lockOk p fs1
      let r := process_paths_fs lockOk rw rest fs1
      (r0.1 ++ r.1, r0.2 ++ r.2.1, r.2.2)
    else
      process_paths_fs lockOk rw rest fs

/-- The tail of `main` after the preflight checks: candidate paths have
been found (`context_paths`), and the exit code is computed from the copy
stage and, when at least one copy succeeded, from the Pipfile-processing
stage.  `none` embeds the invalid-version-format case, which `main`'s
preflight checks terminate before this code runs. -/
def main_exit (context_paths : List Str) (source_version target_version : Str)
    (fs : FSm) (lockOk : Str → Bool) : Option Nat :=
  match extract_python_version source_version, extract_python_version target_version with
  | [sM, sm], [tM, tm] =>
    let paths_dict := replace_python_version_on_paths context_paths source_version target_version
    if paths_dict.length = 0 then some 1
    else
      let c := copy_paths paths_dict fs
      let ec : Nat := if c.2.1.length > 0 then 1 else 0
      if c.1.length > 0 then
        let pr := process_paths_fs lockOk
          (rewriteSeq source_version target_version sM sm tM tm) c.1 c.2.2
        some (if pr.2.1.length > 0 then 1 else ec)
      else some ec
  | _, _ => none

/-! ### Concrete inputs used in counterexamples and witnesses -/

/-- The version string `3.9`. -/
def ver39 : Str := ['3', '.', '9']

/-- The version string `3.11`. -/
def ver311 : Str := ['3', '.', '1', '1']

/-- The version string `3.8`. -/
def ver38 : Str := ['3', '.', '8']

/-- The version string `3.1`. -/
def ver31 : Str := ['3', '.', '1']

/-- The version string `3.10`. -/
def ver310 : Str := ['3', '.', '1', '0']

/-- The version string `3.12`. -/
def ver312 : Str := ['3', '.', '1', '2']

/-- A candidate path `proj/3.9-py39` containing both the dotted and the
`py`-concatenated source token. -/
def exC1path : Str := ['p', 'r', 'o', 'j', '/', '3', '.', '9', '-', 'p', 'y', '3', '9']

/-- What holds of every path recorded by the walk of `find_matching_paths`:
the version and match substrings occur in it, no blocklist string occurs in
it, and some directory listed at that path has a `Dockerfile` among its
immediate files. -/
def goodPath (sv mt : Str) (dirs : List (Str × List Str)) (p : Str) : Prop :=
  strHasSub sv p = true ∧ strHasSub mt p = true ∧
  (∀ b ∈ blocklist, strHasSub b p = false) ∧
  ∃ fl, (p, fl) ∈ dirs ∧ dockerfileName ∈ fl

/-- A context forest `ci/d3.9/Dockerfile`: a `Dockerfile` directory nested
below a top-level `ci` directory. -/
def exC2forest : FTree :=
  .fcons ['c', 'i'] []
    (.fcons ['d', '3', '.', '9'] [(dockerfileName, [])] .fnil .fnil) .fnil

/-- A context forest `a3.9m/b3.9m/Dockerfile`: a qualifying `Dockerfile`
directory nested below a directory that itself contains the version and
match substrings but holds no `Dockerfile`. -/
def exC10forest : FTree :=
  .fcons ['a', '3', '.', '9', 'm'] []
    (.fcons ['b', '3', '.', '9', 'm'] [(dockerfileName, [])] .fnil .fnil) .fnil

end NPBI

namespace NPBI

/-! ### Basic lemmas about the string primitives -/

theorem strHasPre_iff (p s : Str) : strHasPre p s = true ↔ ∃ t, s = p ++ t := by
  induction p generalizing s with
  | nil => simp [strHasPre]
  | cons a p ih =>
    cases s with
    | nil => simp [strHasPre]
    | cons b s =>
      simp only [strHasPre, Bool.and_eq_true, decide_eq_true_eq, ih]
      constructor
      · rintro ⟨rfl, t, rfl⟩; exact ⟨t, rfl⟩
      · rintro ⟨t, h⟩
        cases h
        exact ⟨rfl, t, rfl⟩

theorem strHasSub_iff (n h : Str) : strHasSub n h = true ↔ ∃ u v, h = u ++ n ++ v := by
  induction h with
  | nil =>
    simp only [strHasSub, List.isEmpty_iff]
    constructor
    · rintro rfl; exact ⟨[], [], rfl⟩
    · rintro ⟨u, v, huv⟩
      rcases List.append_eq_nil.mp ((List.append_eq_nil.mp huv.symm).1) with ⟨_, h2⟩
      exact h2
  | cons c t ih =>
    simp only [strHasSub, Bool.or_eq_true, strHasPre_iff, ih]
    constructor
    · rintro (⟨v, hv⟩ | ⟨u, v, rfl⟩)
      · exact ⟨[], v, by simpa using hv⟩
      · exact ⟨c :: u, v, rfl⟩
    · rintro ⟨u, v, huv⟩
      cases u with
      | nil => exact Or.inl ⟨v, by simpa using huv⟩
      | cons a u =>
        rw [List.cons_append, List.cons_append] at huv
        cases huv
        exact Or.inr ⟨u, v, rfl⟩

/-- A character of the needle occurs in any string containing the needle. -/
theorem mem_of_strHasSub {n h : Str} {c : Char} (hs : strHasSub n h = true)
    (hc : c ∈ n) : c ∈ h := by
  rcases (strHasSub_iff n h).mp hs with ⟨u, v, rfl⟩
  simp [hc]

/-- If some character of the needle is absent from the haystack, the needle
is not a substring. -/
theorem strHasSub_eq_false_of_not_mem {n h : Str} {c : Char} (hc : c ∈ n)
    (hh : c ∉ h) : strHasSub n h = false := by
  cases hn : strHasSub n h with
  | false => rfl
  | true => exact absurd (mem_of_strHasSub hn hc) hh

theorem strHasPre_refl_append (p t : Str) : strHasPre p (p ++ t) = true := by
  induction p with
  | nil => simp [strHasPre]
  | cons a p ih => simp [strHasPre, ih]

/-- A prefix is in particular a substring. -/
theorem strHasSub_of_strHasPre {p s : Str} (h : strHasPre p s = true) :
    strHasSub p s = true := by
  rcases (strHasPre_iff p s).mp h with ⟨t, rfl⟩
  exact (strHasSub_iff p (p ++ t)).mpr ⟨[], t, by simp⟩

/-- Dropping never lengthens a list. -/
theorem lengthDropLe (k : Nat) (l : List Char) : (List.drop k l).length ≤ l.length := by
  rw [List.length_drop]; exact Nat.sub_le _ _

/-- The fuel argument of `pyReplaceF` is irrelevant once it covers the
input length. -/
theorem pyReplaceF_congr (old new : Str) : ∀ (f1 f2 : Nat) (s : Str),
    s.length ≤ f1 → s.length ≤ f2 →
    pyReplaceF f1 s old new = pyReplaceF f2 s old new := by
  intro f1
  induction f1 with
  | zero =>
    intro f2 s h1 h2
    have hs : s = [] := List.length_eq_zero.mp (Nat.le_zero.mp h1)
    subst hs
    cases f2 <;> rfl
  | succ f ih =>
    intro f2 s h1 h2
    cases s with
    | nil => cases f2 <;> rfl
    | cons c rest =>
      cases f2 with
      | zero => simp at h2
      | succ f2' =>
        have h1' : rest.length ≤ f := by simp only [List.length_cons] at h1; omega
        have h2' : rest.length ≤ f2' := by simp only [List.length_cons] at h2; omega
        simp only [pyReplaceF]
        by_cases h : strHasPre old (c :: rest) = true ∧ old ≠ []
        · rw [if_pos h, if_pos h,
            ih f2' (List.drop (old.length - 1) rest)
              (le_trans (lengthDropLe _ _) h1')
              (le_trans (lengthDropLe _ _) h2')]
        · rw [if_neg h, if_neg h, ih f2' rest h1' h2']

/-- One-step unfolding of `pyReplace` on a non-empty string. -/
theorem pyReplace_cons (c : Char) (rest old new : Str) :
    pyReplace (c :: rest) old new =
      if strHasPre old (c :: rest) = true ∧ old ≠ []
      then new ++ pyReplace (List.drop (old.length - 1) rest) old new
      else c :: pyReplace rest old new := by
  show pyReplaceF (c :: rest).length (c :: rest) old new = _
  simp only [List.length_cons, pyReplaceF]
  by_cases h : strHasPre old (c :: rest) = true ∧ old ≠ []
  · rw [if_pos h, if_pos h,
      pyReplaceF_congr old new rest.length (List.drop (old.length - 1) rest).length
        (List.drop (old.length - 1) rest) (lengthDropLe _ _) le_rfl]
    rfl
  · rw [if_neg h, if_neg h,
      pyReplaceF_congr old new rest.length rest.length rest le_rfl le_rfl]
    rfl

/-- Replacing a pattern that does not occur leaves the string unchanged. -/
theorem pyReplace_eq_self {s old : Str} (h : strHasSub old s = false)
    (new : Str) : pyReplace s old new = s := by
  induction s with
  | nil => simp [pyReplace, pyReplaceF]
  | cons c rest ih =>
    rw [pyReplace_cons]
    have hpre : strHasPre old (c :: rest) = false := by
      cases hp : strHasPre old (c :: rest) with
      | false => rfl
      | true =>
        have := strHasSub_of_strHasPre hp
        rw [h] at this; cases this
    rw [if_neg]
    · have hsub : strHasSub old rest = false := by
        have := h
        rw [strHasSub, hpre, Bool.false_or] at this
        exact this
      rw [ih hsub]
    · rintro ⟨h1, -⟩
      rw [hpre] at h1; cases h1

theorem dropLenAppend (xs ys : List Char) : List.drop xs.length (xs ++ ys) = ys := by
  induction xs with
  | nil => simp
  | cons a xs ih => simp only [List.length_cons, List.cons_append, List.drop_succ_cons]; exact ih

/-- Replacing `p` inside `u ++ p ++ v` when the head character of `p`
occurs in neither `u` nor `v` replaces exactly the marked occurrence. -/
theorem pyReplace_concat (ph : Char) (pt q u v : Str) (hu : ph ∉ u) (hv : ph ∉ v) :
    pyReplace (u ++ (ph :: pt) ++ v) (ph :: pt) q = u ++ q ++ v := by
  induction u with
  | nil =>
    simp only [List.nil_append]
    rw [List.cons_append, pyReplace_cons, if_pos]
    · have hd : List.drop ((ph :: pt).length - 1) (pt ++ v) = v := by
        simp only [List.length_cons, Nat.add_sub_cancel]
        exact dropLenAppend pt v
      rw [hd, pyReplace_eq_self (strHasSub_eq_false_of_not_mem (List.mem_cons_self ph pt) hv) q]
    · constructor
      · exact strHasPre_refl_append (ph :: pt) v
      · simp
  | cons c u ih =>
    have hcu : ph ≠ c := by
      intro h; exact hu (h ▸ List.mem_cons_self c u)
    have hu' : ph ∉ u := fun h => hu (List.mem_cons_of_mem _ h)
    have hL : (c :: u) ++ (ph :: pt) ++ v = c :: (u ++ (ph :: pt) ++ v) := by simp
    have hR : (c :: u) ++ q ++ v = c :: (u ++ q ++ v) := by simp
    rw [hL, hR, pyReplace_cons, if_neg]
    · rw [ih hu']
    · rintro ⟨h1, -⟩
      rw [strHasPre] at h1
      simp only [Bool.and_eq_true, decide_eq_true_eq] at h1
      exact hcu h1.1

end NPBI

namespace NPBI

/-- Taking the first components of a keyed map gives back the keys. -/
theorem map_fst_map_pair (g : Str → Str) (l : List Str) :
    (l.map fun p => (p, g p)).map Prod.fst = l := by
  induction l with
  | nil => rfl
  | cons p ps ih => simp only [List.map_cons, ih]

/-! ### Splitting version strings -/

theorem splitOnChar_not_mem {sep : Char} {l : Str} (h : sep ∉ l) :
    splitOnChar sep l = [l] := by
  induction l with
  | nil => rfl
  | cons c rest ih =>
    have hc : ¬ c = sep := fun hcs => h (hcs ▸ List.mem_cons_self c rest)
    have hr : sep ∉ rest := fun hs => h (List.mem_cons_of_mem c hs)
    rw [splitOnChar, if_neg hc, ih hr]

theorem splitOnChar_append {sep : Char} {a : Str} (h : sep ∉ a) (b : Str) :
    splitOnChar sep (a ++ sep :: b) = a :: splitOnChar sep b := by
  induction a with
  | nil => simp [splitOnChar]
  | cons c a ih =>
    have hc : ¬ c = sep := fun hcs => h (hcs ▸ List.mem_cons_self c a)
    have ha : sep ∉ a := fun hs => h (List.mem_cons_of_mem c hs)
    rw [List.cons_append, splitOnChar, if_neg hc, ih ha]

/-- On a string of the shape `major.minor` (no further dots),
`extract_python_version` recovers exactly the two components. -/
theorem extract_python_version_eq {a b : Str} (ha : '.' ∉ a) (hb : '.' ∉ b) :
    extract_python_version (a ++ '.' :: b) = [a, b] := by
  rw [extract_python_version, splitOnChar_append ha, splitOnChar_not_mem hb]
  rfl

/-- A string of digits contains no dot. -/
theorem not_dot_mem_of_digits {a : Str} (h : ∀ x ∈ a, x.isDigit = true) : '.' ∉ a := by
  intro hm
  have := h '.' hm
  exact absurd this (by decide)

/-- C3: for version strings `a.b` and `c.d` matching `\d+\.\d+`,
`replace_python_version_in_content` substitutes exactly the four
source-derived patterns `a.b`, `a-b`, `python-ab`, `pyab` by the four
target-derived replacements, as a fixed sequence applied to every text;
the components are taken whole, so multi-digit minors stay intact. -/
theorem c3_four_patterns (content a b c d : Str)
    ( _ha : a ≠ []) ( _hb : b ≠ []) ( _hc : c ≠ []) ( _hd : d ≠ [])
    (hda : ∀ x ∈ a, x.isDigit = true) (hdb : ∀ x ∈ b, x.isDigit = true)
    (hdc : ∀ x ∈ c, x.isDigit = true) (hdd : ∀ x ∈ d, x.isDigit = true) :
    replace_python_version_in_content content (a ++ '.' :: b) (c ++ '.' :: d) =
      some (pyReplace
        (pyReplace
          (pyReplace
            (pyReplace content (a ++ '.' :: b) (c ++ '.' :: d))
            (a ++ '-' :: b) (c ++ '-' :: d))
          (pythonPre ++ a ++ b) (pythonPre ++ c ++ d))
        (pyPre ++ a ++ b) (pyPre ++ c ++ d)) := by
  rw [replace_python_version_in_content,
    extract_python_version_eq (not_dot_mem_of_digits hda) (not_dot_mem_of_digits hdb),
    extract_python_version_eq (not_dot_mem_of_digits hdc) (not_dot_mem_of_digits hdd)]
  rfl

/-- C3 witness: source `3.10`, target `3.12`, on a text exercising all four
pattern shapes; the dashed pattern is `3-10` and the concatenated patterns
are `python-310` / `py310` (multi-digit minor intact). -/
theorem c3_four_patterns_witness :
    replace_python_version_in_content
      (['3', '.', '1', '0', ' ', '3', '-', '1', '0', ' ', 'p', 'y', 't', 'h', 'o', 'n',
        '-', '3', '1', '0', ' ', 'p', 'y', '3', '1', '0'])
      (['3'] ++ '.' :: ['1', '0']) (['3'] ++ '.' :: ['1', '2']) =
      some (pyReplace
        (pyReplace
          (pyReplace
            (pyReplace
              (['3', '.', '1', '0', ' ', '3', '-', '1', '0', ' ', 'p', 'y', 't', 'h', 'o',
                'n', '-', '3', '1', '0', ' ', 'p', 'y', '3', '1', '0'])
              (['3'] ++ '.' :: ['1', '0']) (['3'] ++ '.' :: ['1', '2']))
            (['3'] ++ '-' :: ['1', '0']) (['3'] ++ '-' :: ['1', '2']))
          (pythonPre ++ ['3'] ++ ['1', '0']) (pythonPre ++ ['3'] ++ ['1', '2']))
        (pyPre ++ ['3'] ++ ['1', '0']) (pyPre ++ ['3'] ++ ['1', '2'])) :=
  c3_four_patterns _ ['3'] ['1', '0'] ['3'] ['1', '2']
    (by decide) (by decide) (by decide) (by decide)
    (by decide) (by decide) (by decide) (by decide)

/-- C1 counterexample: on the candidate path `proj/3.9-py39` with versions
`3.9` → `3.11`, `replace_python_version_on_paths` produces the destination
`proj/3.11-py39` (only the dotted token replaced), while applying every
pattern of the rewrite set — the same rewriting used for file contents —
would produce `proj/3.11-py311`; the two differ, so the destination is not
the path with every pattern applied. -/
theorem c1_counterexample :
    replace_python_version_on_paths [exC1path] ver39 ver311 =
      [(exC1path, ['p', 'r', 'o', 'j', '/', '3', '.', '1', '1', '-', 'p', 'y', '3', '9'])] ∧
    replace_python_version_in_content exC1path ver39 ver311 =
      some ['p', 'r', 'o', 'j', '/', '3', '.', '1', '1', '-', 'p', 'y', '3', '1', '1'] ∧
    (['p', 'r', 'o', 'j', '/', '3', '.', '1', '1', '-', 'p', 'y', '3', '9'] : Str) ≠
      ['p', 'r', 'o', 'j', '/', '3', '.', '1', '1', '-', 'p', 'y', '3', '1', '1'] := by
  decide

/-- C1 amended: `replace_python_version_on_paths` returns one entry per
candidate, keyed by the candidate in order, and each destination is the
source path with only the dotted pattern applied — every occurrence of the
source version string replaced by the target version string — not with the
full rewrite-pattern set. -/
theorem c1_dotted_only (paths_list : List Str) (source_version target_version : Str) :
    (replace_python_version_on_paths paths_list source_version target_version).map
      Prod.fst = paths_list ∧
    ∀ pr ∈ replace_python_version_on_paths paths_list source_version target_version,
      pr.2 = pyReplace pr.1 source_version target_version := by
  constructor
  · exact map_fst_map_pair _ paths_list
  · intro pr hpr
    simp only [replace_python_version_on_paths, List.mem_map] at hpr
    obtain ⟨p, -, rfl⟩ := hpr
    rfl

/-- C1 amended, witness at the path `proj/3.9-py39` with `3.9` → `3.11`. -/
theorem c1_dotted_only_witness :
    (replace_python_version_on_paths [exC1path] ver39 ver311).map Prod.fst = [exC1path] ∧
    (exC1path, ['p', 'r', 'o', 'j', '/', '3', '.', '1', '1', '-', 'p', 'y', '3', '9']).2 =
      pyReplace (exC1path,
        ['p', 'r', 'o', 'j', '/', '3', '.', '1', '1', '-', 'p', 'y', '3', '9']).1
        ver39 ver311 :=
  ⟨(c1_dotted_only [exC1path] ver39 ver311).1,
   (c1_dotted_only [exC1path] ver39 ver311).2
     (exC1path, ['p', 'r', 'o', 'j', '/', '3', '.', '1', '1', '-', 'p', 'y', '3', '9'])
     (by decide)⟩

end NPBI

namespace NPBI

/-! ### Round-tripping the rewrite (C4) -/

theorem not_mem_append3 {c : Char} {u m v : Str} (hu : c ∉ u) (hm : c ∉ m)
    (hv : c ∉ v) : c ∉ u ++ m ++ v := by
  intro h
  rcases List.mem_append.mp h with h1 | h2
  · rcases List.mem_append.mp h1 with h3 | h4
    · exact hu h3
    · exact hm h4
  · exact hv h2

/-- C4 counterexample: `3.8` and `3.11` are a non-overlapping pair (neither
is a substring of the other), yet rewriting the text `3.11` from `3.8` to
`3.11` and back yields `3.8`, not the original text — the round trip fails
on a text that already contains a target-derived token, so it does not hold
for every text. -/
theorem c4_counterexample :
    strHasSub ver38 ver311 = false ∧ strHasSub ver311 ver38 = false ∧
    (replace_python_version_in_content ver311 ver38 ver311).bind
      (fun y => replace_python_version_in_content y ver311 ver38) =
      some ['3', '.', '8'] ∧
    (['3', '.', '8'] : Str) ≠ ver311 := by
  decide

/-- C4 amended: for the non-overlapping pair `3.8` → `3.11`, the round trip
restores exactly every text of the form `u ++ 3.8 ++ v` whose context `u`,
`v` is free of digits, dots, dashes and the letter `y` (so no source- or
target-derived pattern overlaps the context); it also restores the
representative four-token text below.  For arbitrary texts it can fail (see
the counterexample), and for the overlapping pair `3.11` / `3.1` — one a
substring of the other — it fails already on the bare text `3.1`. -/
theorem c4_roundtrip :
    (∀ u v : Str,
      (∀ ch ∈ u, ch.isDigit = false ∧ ch ≠ '.' ∧ ch ≠ '-' ∧ ch ≠ 'y') →
      (∀ ch ∈ v, ch.isDigit = false ∧ ch ≠ '.' ∧ ch ≠ '-' ∧ ch ≠ 'y') →
      (replace_python_version_in_content (u ++ ver38 ++ v) ver38 ver311).bind
        (fun y => replace_python_version_in_content y ver311 ver38) =
        some (u ++ ver38 ++ v)) ∧
    (replace_python_version_in_content
        ['F', 'R', 'O', 'M', ' ', 'p', 'y', 't', 'h', 'o', 'n', ':', '3', '.', '8', ' ',
         'p', 'y', '3', '8', ' ', 'p', 'y', 't', 'h', 'o', 'n', '-', '3', '8', ' ',
         'v', '3', '-', '8'] ver38 ver311).bind
      (fun y => replace_python_version_in_content y ver311 ver38) =
      some ['F', 'R', 'O', 'M', ' ', 'p', 'y', 't', 'h', 'o', 'n', ':', '3', '.', '8', ' ',
            'p', 'y', '3', '8', ' ', 'p', 'y', 't', 'h', 'o', 'n', '-', '3', '8', ' ',
            'v', '3', '-', '8'] ∧
    (strHasSub ver31 ver311 = true ∧
      (replace_python_version_in_content ver31 ver311 ver31).bind
        (fun y => replace_python_version_in_content y ver31 ver311) = some ver311 ∧
      ver311 ≠ ver31) := by
  refine ⟨?_, by decide, by decide⟩
  intro u v hu hv
  have h3u : '3' ∉ u := fun hm => absurd (hu '3' hm).1 (by decide)
  have h3v : '3' ∉ v := fun hm => absurd (hv '3' hm).1 (by decide)
  have hdu : '-' ∉ u := fun hm => absurd rfl (hu '-' hm).2.2.1
  have hdv : '-' ∉ v := fun hm => absurd rfl (hv '-' hm).2.2.1
  have hyu : 'y' ∉ u := fun hm => absurd rfl (hu 'y' hm).2.2.2
  have hyv : 'y' ∉ v := fun hm => absurd rfl (hv 'y' hm).2.2.2
  have hfwd : ∀ x : Str, replace_python_version_in_content x ver38 ver311 =
      some (rewriteSeq ver38 ver311 ['3'] ['8'] ['3'] ['1', '1'] x) := fun x => rfl
  have hbwd : ∀ x : Str, replace_python_version_in_content x ver311 ver38 =
      some (rewriteSeq ver311 ver38 ['3'] ['1', '1'] ['3'] ['8'] x) := fun x => rfl
  have hseq : ∀ sv tv sM sm tM tm x, rewriteSeq sv tv sM sm tM tm x =
      pyReplace (pyReplace (pyReplace (pyReplace x sv tv)
        (sM ++ '-' :: sm) (tM ++ '-' :: tm))
        (pythonPre ++ sM ++ sm) (pythonPre ++ tM ++ tm))
        (pyPre ++ sM ++ sm) (pyPre ++ tM ++ tm) := fun _ _ _ _ _ _ _ => rfl
  have hdash311 : '-' ∉ u ++ ver311 ++ v := not_mem_append3 hdu (by decide) hdv
  have hy311 : 'y' ∉ u ++ ver311 ++ v := not_mem_append3 hyu (by decide) hyv
  have hdash38 : '-' ∉ u ++ ver38 ++ v := not_mem_append3 hdu (by decide) hdv
  have hy38 : 'y' ∉ u ++ ver38 ++ v := not_mem_append3 hyu (by decide) hyv
  have e1 : pyReplace (u ++ ver38 ++ v) ver38 ver311 = u ++ ver311 ++ v :=
    pyReplace_concat '3' ['.', '8'] ver311 u v h3u h3v
  have e2 : pyReplace (u ++ ver311 ++ v) (['3'] ++ '-' :: ['8'])
      (['3'] ++ '-' :: ['1', '1']) = u ++ ver311 ++ v :=
    pyReplace_eq_self
      (strHasSub_eq_false_of_not_mem (show '-' ∈ (['3'] ++ '-' :: ['8'] : Str) by decide)
        hdash311) _
  have e3 : pyReplace (u ++ ver311 ++ v) (pythonPre ++ ['3'] ++ ['8'])
      (pythonPre ++ ['3'] ++ ['1', '1']) = u ++ ver311 ++ v :=
    pyReplace_eq_self
      (strHasSub_eq_false_of_not_mem
        (show '-' ∈ (pythonPre ++ ['3'] ++ ['8'] : Str) by decide) hdash311) _
  have e4 : pyReplace (u ++ ver311 ++ v) (pyPre ++ ['3'] ++ ['8'])
      (pyPre ++ ['3'] ++ ['1', '1']) = u ++ ver311 ++ v :=
    pyReplace_eq_self
      (strHasSub_eq_false_of_not_mem
        (show 'y' ∈ (pyPre ++ ['3'] ++ ['8'] : Str) by decide) hy311) _
  have b1 : pyReplace (u ++ ver311 ++ v) ver311 ver38 = u ++ ver38 ++ v :=
    pyReplace_concat '3' ['.', '1', '1'] ver38 u v h3u h3v
  have b2 : pyReplace (u ++ ver38 ++ v) (['3'] ++ '-' :: ['1', '1'])
      (['3'] ++ '-' :: ['8']) = u ++ ver38 ++ v :=
    pyReplace_eq_self
      (strHasSub_eq_false_of_not_mem
        (show '-' ∈ (['3'] ++ '-' :: ['1', '1'] : Str) by decide) hdash38) _
  have b3 : pyReplace (u ++ ver38 ++ v) (pythonPre ++ ['3'] ++ ['1', '1'])
      (pythonPre ++ ['3'] ++ ['8']) = u ++ ver38 ++ v :=
    pyReplace_eq_self
      (strHasSub_eq_false_of_not_mem
        (show '-' ∈ (pythonPre ++ ['3'] ++ ['1', '1'] : Str) by decide) hdash38) _
  have b4 : pyReplace (u ++ ver38 ++ v) (pyPre ++ ['3'] ++ ['1', '1'])
      (pyPre ++ ['3'] ++ ['8']) = u ++ ver38 ++ v :=
    pyReplace_eq_self
      (strHasSub_eq_false_of_not_mem
        (show 'y' ∈ (pyPre ++ ['3'] ++ ['1', '1'] : Str) by decide) hy38) _
  rw [hfwd, Option.some_bind, hbwd, hseq, hseq, e1, e2, e3, e4, b1, b2, b3, b4]

/-- C4 amended, witness: context `FROM ` / ` base` around `3.8`. -/
theorem c4_roundtrip_witness :
    (∀ ch ∈ (['F', 'R', 'O', 'M', ' '] : Str),
      ch.isDigit = false ∧ ch ≠ '.' ∧ ch ≠ '-' ∧ ch ≠ 'y') ∧
    (∀ ch ∈ ([' ', 'b', 'a', 's', 'e'] : Str),
      ch.isDigit = false ∧ ch ≠ '.' ∧ ch ≠ '-' ∧ ch ≠ 'y') ∧
    (replace_python_version_in_content
        (['F', 'R', 'O', 'M', ' '] ++ ver38 ++ [' ', 'b', 'a', 's', 'e']) ver38 ver311).bind
      (fun y => replace_python_version_in_content y ver311 ver38) =
      some (['F', 'R', 'O', 'M', ' '] ++ ver38 ++ [' ', 'b', 'a', 's', 'e']) :=
  ⟨by decide, by decide,
    c4_roundtrip.1 ['F', 'R', 'O', 'M', ' '] [' ', 'b', 'a', 's', 'e']
      (by decide) (by decide)⟩

end NPBI

namespace NPBI

/-! ### Soundness of the scanning walk (C2, C7, C10) -/

theorem walkForest_fnil (sv mt parent : Str) (acc : List Str) :
    walkForest sv mt parent .fnil acc = acc := rfl

theorem walkForest_fcons (sv mt parent name : Str) (files : List (Str × Str))
    (subs rest : FTree) (acc : List Str) :
    walkForest sv mt parent (.fcons name files subs rest) acc =
      walkForest sv mt parent rest
        (if (blocklist.any fun b => strHasSub b (pathJoin parent name)) = true then acc
         else if strHasSub sv (pathJoin parent name) = true ∧
             strHasSub mt (pathJoin parent name) = true then
           visitDir (pathJoin parent name) files acc
         else walkForest sv mt (pathJoin parent name) subs acc) := rfl

theorem goodPath_mono {sv mt : Str} {dirs dirs' : List (Str × List Str)} {p : Str}
    (hsub : ∀ d ∈ dirs, d ∈ dirs') (h : goodPath sv mt dirs p) :
    goodPath sv mt dirs' p := by
  obtain ⟨h1, h2, h3, fl, hfl, hdf⟩ := h
  exact ⟨h1, h2, h3, fl, hsub _ hfl, hdf⟩

/-- From a false `List.any`, each element tests false. -/
theorem eq_false_of_any_eq_false {l : List Str} {q : Str → Bool}
    (h : ¬ l.any q = true) : ∀ b ∈ l, q b = false := by
  intro b hb
  cases hq : q b with
  | false => rfl
  | true => exact absurd (List.any_eq_true.mpr ⟨b, hb, hq⟩) h

/-- Every path the walk appends over `acc` is fresh, recorded at most once,
and sound: it passed the substring tests, it passed the blocklist test, and
a directory of the walked forest at that path holds a `Dockerfile`. -/
theorem walkForest_spec (sv mt : Str) (f : FTree) : ∀ (parent : Str) (acc : List Str),
    ∃ ext, walkForest sv mt parent f acc = acc ++ ext ∧ ext.Nodup ∧
      ∀ p ∈ ext, p ∉ acc ∧ goodPath sv mt (dirsAtForest parent f) p := by
  induction f with
  | fnil =>
    intro parent acc
    exact ⟨[], by simp [walkForest_fnil], List.nodup_nil, by simp⟩
  | fcons name files subs rest ihs ihr =>
    intro parent acc
    rw [walkForest_fcons]
    have hdirs : dirsAtForest parent (.fcons name files subs rest) =
        (pathJoin parent name, files.map Prod.fst) ::
          (dirsAtForest (pathJoin parent name) subs ++ dirsAtForest parent rest) := rfl
    by_cases hb : (blocklist.any fun b => strHasSub b (pathJoin parent name)) = true
    · rw [if_pos hb]
      obtain ⟨e2, h2eq, h2nd, h2all⟩ := ihr parent acc
      refine ⟨e2, h2eq, h2nd, fun p hp => ⟨(h2all p hp).1, ?_⟩⟩
      refine goodPath_mono ?_ (h2all p hp).2
      intro d hd
      rw [hdirs]
      exact List.mem_cons_of_mem _ (List.mem_append_right _ hd)
    · rw [if_neg hb]
      by_cases hm : strHasSub sv (pathJoin parent name) = true ∧
          strHasSub mt (pathJoin parent name) = true
      · rw [if_pos hm, visitDir]
        by_cases hd : dockerfileName ∈ files.map Prod.fst ∧ pathJoin parent name ∉ acc
        · rw [if_pos hd]
          obtain ⟨e2, h2eq, h2nd, h2all⟩ := ihr parent (acc ++ [pathJoin parent name])
          refine ⟨pathJoin parent name :: e2, ?_, ?_, ?_⟩
          · rw [h2eq, List.append_assoc]
            rfl
          · rw [List.nodup_cons]
            refine ⟨fun hmem => ?_, h2nd⟩
            exact (h2all _ hmem).1 (List.mem_append_right _ (List.mem_singleton.mpr rfl))
          · intro p hp
            rcases List.mem_cons.mp hp with rfl | hp2
            · refine ⟨hd.2, hm.1, hm.2, eq_false_of_any_eq_false hb, files.map Prod.fst,
                ?_, hd.1⟩
              rw [hdirs]
              exact List.mem_cons_self _ _
            · refine ⟨fun hmem => (h2all p hp2).1 (List.mem_append_left _ hmem), ?_⟩
              refine goodPath_mono ?_ (h2all p hp2).2
              intro d hdm
              rw [hdirs]
              exact List.mem_cons_of_mem _ (List.mem_append_right _ hdm)
        · rw [if_neg hd]
          obtain ⟨e2, h2eq, h2nd, h2all⟩ := ihr parent acc
          refine ⟨e2, h2eq, h2nd, fun p hp => ⟨(h2all p hp).1, ?_⟩⟩
          refine goodPath_mono ?_ (h2all p hp).2
          intro d hdm
          rw [hdirs]
          exact List.mem_cons_of_mem _ (List.mem_append_right _ hdm)
      · rw [if_neg hm]
        obtain ⟨e1, h1eq, h1nd, h1all⟩ := ihs (pathJoin parent name) acc
        rw [h1eq]
        obtain ⟨e2, h2eq, h2nd, h2all⟩ := ihr parent (acc ++ e1)
        refine ⟨e1 ++ e2, by rw [h2eq, List.append_assoc], ?_, ?_⟩
        · refine List.Nodup.append h1nd h2nd ?_
          intro a ha1 ha2
          exact (h2all a ha2).1 (List.mem_append_right _ ha1)
        · intro p hp
          rcases List.mem_append.mp hp with hp1 | hp2
          · refine ⟨(h1all p hp1).1, ?_⟩
            refine goodPath_mono ?_ (h1all p hp1).2
            intro d hdm
            rw [hdirs]
            exact List.mem_cons_of_mem _ (List.mem_append_left _ hdm)
          · refine ⟨fun hmem => (h2all p hp2).1 (List.mem_append_left _ hmem), ?_⟩
            refine goodPath_mono ?_ (h2all p hp2).2
            intro d hdm
            rw [hdirs]
            exact List.mem_cons_of_mem _ (List.mem_append_right _ hdm)

/-- Everything `find_matching_paths` returns is sound, and the result has
no duplicates. -/
theorem find_matching_paths_spec (context_dir : Str) (files : List (Str × Str))
    (subs : FTree) (sv mt : Str) :
    (∀ p ∈ find_matching_paths context_dir files subs sv mt,
      strHasSub sv p = true ∧ strHasSub mt p = true ∧
      (∀ b ∈ blocklist, strHasSub b p = false) ∧
      ∃ fl, (p, fl) ∈ (context_dir, files.map Prod.fst) :: dirsAtForest context_dir subs ∧
        dockerfileName ∈ fl) ∧
    (find_matching_paths context_dir files subs sv mt).Nodup := by
  rw [find_matching_paths]
  by_cases hb : (blocklist.any fun b => strHasSub b context_dir) = true
  · rw [if_pos hb]
    exact ⟨by simp, List.Nodup.filter _ List.nodup_nil⟩
  · rw [if_neg hb]
    by_cases hm : strHasSub sv context_dir = true ∧ strHasSub mt context_dir = true
    · rw [if_pos hm, visitDir]
      by_cases hd : dockerfileName ∈ files.map Prod.fst ∧ context_dir ∉ ([] : List Str)
      · rw [if_pos hd]
        constructor
        · intro p hp
          have hp' := List.mem_filter.mp hp
          have : p = context_dir := by simpa using hp'.1
          subst this
          exact ⟨by simpa using hp'.2, hm.2, eq_false_of_any_eq_false hb,
            files.map Prod.fst, List.mem_cons_self _ _, hd.1⟩
        · exact List.Nodup.filter _ (by simp)
      · rw [if_neg hd]
        exact ⟨by simp, List.Nodup.filter _ List.nodup_nil⟩
    · rw [if_neg hm]
      obtain ⟨ext, heq, hnd, hall⟩ := walkForest_spec sv mt subs context_dir []
      rw [heq, List.nil_append]
      constructor
      · intro p hp
        have hp' := List.mem_filter.mp hp
        obtain ⟨-, h1, h2, h3, fl, hfl, hdf⟩ := hall p hp'.1
        exact ⟨h1, h2, h3, fl, List.mem_cons_of_mem _ hfl, hdf⟩
      · exact List.Nodup.filter _ hnd

end NPBI

namespace NPBI

/-- C7: every path returned by `find_matching_paths` contains the literal
source-version substring and the literal match substring, and a directory
listed at that path (the scan root itself or a walked directory) has a
file named `Dockerfile` in its immediate file list; a directory lacking
the `Dockerfile` is never recorded, and the result list holds no duplicate
paths. -/
theorem c7_scan_results (context_dir : Str) (files : List (Str × Str)) (subs : FTree)
    (source_version mt : Str) :
    (∀ p ∈ find_matching_paths context_dir files subs source_version mt,
      strHasSub source_version p = true ∧ strHasSub mt p = true ∧
      ∃ fl, (p, fl) ∈ (context_dir, files.map Prod.fst) :: dirsAtForest context_dir subs ∧
        dockerfileName ∈ fl) ∧
    (find_matching_paths context_dir files subs source_version mt).Nodup := by
  obtain ⟨hall, hnd⟩ := find_matching_paths_spec context_dir files subs source_version mt
  refine ⟨fun p hp => ?_, hnd⟩
  obtain ⟨h1, h2, -, hfl⟩ := hall p hp
  exact ⟨h1, h2, hfl⟩

/-- C7 witness: the scan of `r` over `ci/d3.9/Dockerfile` returns
`r/ci/d3.9`, which satisfies all three conditions, without duplicates. -/
theorem c7_scan_results_witness :
    (strHasSub ver39 (pathJoin (pathJoin ['r'] ['c', 'i']) ['d', '3', '.', '9']) = true ∧
      strHasSub [] (pathJoin (pathJoin ['r'] ['c', 'i']) ['d', '3', '.', '9']) = true ∧
      ∃ fl, (pathJoin (pathJoin ['r'] ['c', 'i']) ['d', '3', '.', '9'], fl) ∈
          (['r'], (([] : List (Str × Str))).map Prod.fst) :: dirsAtForest ['r'] exC2forest ∧
        dockerfileName ∈ fl) ∧
    (find_matching_paths ['r'] [] exC2forest ver39 []).Nodup :=
  ⟨(c7_scan_results ['r'] [] exC2forest ver39 []).1
      (pathJoin (pathJoin ['r'] ['c', 'i']) ['d', '3', '.', '9']) (by decide),
   (c7_scan_results ['r'] [] exC2forest ver39 []).2⟩

/-- C2 counterexample: scanning the root `r` over the forest
`ci/d3.9/Dockerfile` returns the path `r/ci/d3.9`, which lies below the
excluded segment `ci` anchored at the scan root — the blocklist entries
are the literal strings `./ci`, ..., which do not occur in paths under the
root `r`, so the claimed pruning fails for scan roots other than `.`. -/
theorem c2_counterexample :
    pathJoin (pathJoin ['r'] ['c', 'i']) ['d', '3', '.', '9'] ∈
      find_matching_paths ['r'] [] exC2forest ver39 [] ∧
    strHasPre (pathJoin ['r'] ['c', 'i'])
      (pathJoin (pathJoin ['r'] ['c', 'i']) ['d', '3', '.', '9']) = true ∧
    ['c', 'i'] ∈ blockSegs := by
  decide

/-- C2 amended: the pruning of `find_matching_paths` is by the literal
strings `./seg` for the seven excluded names: (1) a directory whose path
contains such a string is skipped together with its entire subtree, and
(2) no returned path contains any blocklist string; consequently (3) when
the scan root is `.` — the anchoring the blocklist is built for — no
returned path has an excluded segment anchored at the scan root.  For
other scan roots the anchored exclusion does not apply (see the
counterexample). -/
theorem c2_blocklist_pruning :
    (∀ sv mt parent name files subs rest acc,
      (blocklist.any fun b => strHasSub b (pathJoin parent name)) = true →
      walkForest sv mt parent (.fcons name files subs rest) acc =
        walkForest sv mt parent rest acc) ∧
    (∀ context_dir files subs sv mt p,
      p ∈ find_matching_paths context_dir files subs sv mt →
      ∀ b ∈ blocklist, strHasSub b p = false) ∧
    (∀ files subs sv mt p,
      p ∈ find_matching_paths ['.'] files subs sv mt →
      ∀ seg ∈ blockSegs, strHasPre (pathJoin ['.'] seg) p = false) := by
  refine ⟨?_, ?_, ?_⟩
  · intro sv mt parent name files subs rest acc hb
    rw [walkForest_fcons, if_pos hb]
  · intro context_dir files subs sv mt p hp b hb
    exact ((find_matching_paths_spec context_dir files subs sv mt).1 p hp).2.2.1 b hb
  · intro files subs sv mt p hp seg hseg
    cases hpre : strHasPre (pathJoin ['.'] seg) p with
    | false => rfl
    | true =>
      have hsub := strHasSub_of_strHasPre hpre
      have hb : pathJoin ['.'] seg ∈ blocklist := List.mem_map.mpr ⟨seg, hseg, rfl⟩
      have := ((find_matching_paths_spec ['.'] files subs sv mt).1 p hp).2.2.1 _ hb
      rw [this] at hsub
      cases hsub

/-- C2 amended, witness: the top-level directory `./ci` is pruned with its
whole subtree even though it holds a `Dockerfile`, and the path `./a3.9`
returned from a scan rooted at `.` contains no blocklist string such as
`./ci`. -/
theorem c2_blocklist_pruning_witness :
    (blocklist.any fun b =>
      strHasSub b (pathJoin ['.'] ['c', 'i'])) = true ∧
    walkForest ver39 [] ['.']
      (.fcons ['c', 'i'] [(dockerfileName, [])] .fnil .fnil) [] =
      walkForest ver39 [] ['.'] .fnil [] ∧
    pathJoin ['.'] ['a', '3', '.', '9'] ∈
      find_matching_paths ['.'] []
        (.fcons ['a', '3', '.', '9'] [(dockerfileName, [])] .fnil .fnil) ver39 [] ∧
    strHasSub (pathJoin ['.'] ['c', 'i']) (pathJoin ['.'] ['a', '3', '.', '9']) = false :=
  ⟨by decide,
   c2_blocklist_pruning.1 ver39 [] ['.'] ['c', 'i'] [(dockerfileName, [])] .fnil .fnil []
     (by decide),
   by decide,
   c2_blocklist_pruning.2.1 ['.'] []
     (.fcons ['a', '3', '.', '9'] [(dockerfileName, [])] .fnil .fnil) ver39 []
     (pathJoin ['.'] ['a', '3', '.', '9']) (by decide)
     (pathJoin ['.'] ['c', 'i']) (by decide)⟩

/-- C10: a directory whose path contains both the source-version and match
substrings prunes its entire subtree even when it lacks a `Dockerfile` and
is not recorded: the walk of such an entry contributes nothing beyond its
siblings.  Consequently a qualifying `Dockerfile` directory nested beneath
a matching but descriptorless directory is never returned: the forest
`a3.9m/b3.9m/Dockerfile` scanned from `r` with version `3.9` and match `m`
yields no candidates although the nested directory `r/a3.9m/b3.9m`
contains both substrings and has the `Dockerfile`. -/
theorem c10_match_prunes_subtree :
    (∀ sv mt parent name files subs rest acc,
      (blocklist.any fun b => strHasSub b (pathJoin parent name)) = false →
      strHasSub sv (pathJoin parent name) = true →
      strHasSub mt (pathJoin parent name) = true →
      dockerfileName ∉ files.map Prod.fst →
      walkForest sv mt parent (.fcons name files subs rest) acc =
        walkForest sv mt parent rest acc) ∧
    (find_matching_paths ['r'] [] exC10forest ver39 ['m'] = [] ∧
      strHasSub ver39
        (pathJoin (pathJoin ['r'] ['a', '3', '.', '9', 'm']) ['b', '3', '.', '9', 'm']) =
        true ∧
      strHasSub ['m']
        (pathJoin (pathJoin ['r'] ['a', '3', '.', '9', 'm']) ['b', '3', '.', '9', 'm']) =
        true ∧
      (pathJoin (pathJoin ['r'] ['a', '3', '.', '9', 'm']) ['b', '3', '.', '9', 'm'],
        [dockerfileName]) ∈ dirsAtForest ['r'] exC10forest) := by
  constructor
  · intro sv mt parent name files subs rest acc hb hsv hmt hd
    rw [walkForest_fcons, if_neg (by rw [hb]; exact Bool.false_ne_true),
      if_pos ⟨hsv, hmt⟩, visitDir, if_neg]
    rintro ⟨h1, -⟩
    exact hd h1
  · exact ⟨by decide, by decide, by decide, by decide⟩

/-- C10 witness: the matching, descriptorless directory `r/a3.9m` prunes
its subtree in a concrete walk. -/
theorem c10_match_prunes_subtree_witness :
    (blocklist.any fun b =>
      strHasSub b (pathJoin ['r'] ['a', '3', '.', '9', 'm'])) = false ∧
    strHasSub ver39 (pathJoin ['r'] ['a', '3', '.', '9', 'm']) = true ∧
    strHasSub ['m'] (pathJoin ['r'] ['a', '3', '.', '9', 'm']) = true ∧
    dockerfileName ∉ (([] : List (Str × Str)).map Prod.fst) ∧
    walkForest ver39 ['m'] ['r']
      (.fcons ['a', '3', '.', '9', 'm'] []
        (.fcons ['b', '3', '.', '9', 'm'] [(dockerfileName, [])] .fnil .fnil) .fnil) [] =
      walkForest ver39 ['m'] ['r'] .fnil [] :=
  ⟨by decide, by decide, by decide, by decide,
   c10_match_prunes_subtree.1 ver39 ['m'] ['r'] ['a', '3', '.', '9', 'm'] []
     (.fcons ['b', '3', '.', '9', 'm'] [(dockerfileName, [])] .fnil .fnil) .fnil []
     (by decide) (by decide) (by decide) (by decide)⟩

end NPBI

namespace NPBI

/-! ### Pipfile selection (C8) -/

/-- The per-directory lock loop partitions exactly the Pipfile-named files,
in file order, by the external outcome. -/
theorem lockFiles_eq (lockOk : Str → Bool) (path : Str) (files : List (Str × Str)) :
    lockFiles lockOk path files =
      ((files.filterMap fun f =>
          if isPipfileName f.1 = true then some (pathJoin path f.1) else none).filter
        lockOk,
       (files.filterMap fun f =>
          if isPipfileName f.1 = true then some (pathJoin path f.1) else none).filter
        fun p => !(lockOk p)) := by
  induction files with
  | nil => rfl
  | cons f rest ih =>
    by_cases hf : isPipfileName f.1 = true
    · by_cases hl : lockOk (pathJoin path f.1) = true
      · simp [lockFiles, ih, List.filterMap_cons, hf, hl]
      · have hl' : lockOk (pathJoin path f.1) = false := Bool.eq_false_iff.mpr hl
        simp [lockFiles, ih, List.filterMap_cons, hf, hl']
    · have hf' : isPipfileName f.1 = false := Bool.eq_false_iff.mpr hf
      simp [lockFiles, ih, List.filterMap_cons, hf']

theorem joinSegs_cons (path name : Str) (segs : List Str) :
    joinSegs path (name :: segs) = joinSegs (pathJoin path name) segs := rfl

/-- The forest walk of `process_pipfiles` partitions exactly the path-wise
Pipfile targets by the external outcome. -/
theorem process_pipfiles_forest_eq (lockOk : Str → Bool) (f : FTree) : ∀ parent : Str,
    process_pipfiles_forest lockOk parent f =
      ((pipTargets parent f).filter lockOk,
       (pipTargets parent f).filter fun p => !(lockOk p)) := by
  induction f with
  | fnil => intro parent; rfl
  | fcons name files subs rest ihs ihr =>
    intro parent
    have htgt : pipTargets parent (.fcons name files subs rest) =
        (files.filterMap fun p =>
          if isPipfileName p.1 = true then some (pathJoin (pathJoin parent name) p.1)
          else none) ++
        (pipTargets (pathJoin parent name) subs ++ pipTargets parent rest) := by
      rw [pipTargets, filesOfForest, List.filterMap_append, List.filterMap_append,
        List.filterMap_map, List.filterMap_map, List.append_assoc]
      rfl
    rw [process_pipfiles_forest, lockFiles_eq, ihs (pathJoin parent name), ihr parent,
      htgt]
    simp [List.filter_append, List.append_assoc]

/-- C8: `process_pipfiles` invokes the external lock command exactly for
the files of the processed directory and its subtree whose name starts
with the literal `Pipfile` and does not contain `lock` — the invoked set,
success and failure lists together, is the filter-partition of exactly
those files' paths; in particular, of the two files `a/Pipfile` and
`a/Pipfile.lock` only `a/Pipfile` is targeted. -/
theorem c8_pipfile_selection :
    (∀ (lockOk : Str → Bool) (path : Str) (files : List (Str × Str)) (subs : FTree),
      process_pipfiles lockOk path files subs =
        (((files.filterMap fun f =>
            if isPipfileName f.1 = true then some (pathJoin path f.1) else none) ++
          pipTargets path subs).filter lockOk,
         ((files.filterMap fun f =>
            if isPipfileName f.1 = true then some (pathJoin path f.1) else none) ++
          pipTargets path subs).filter fun p => !(lockOk p))) ∧
    isPipfileName pipfilePre = true ∧
    isPipfileName (pipfilePre ++ ['.', 'l', 'o', 'c', 'k']) = false ∧
    (∀ lockOk : Str → Bool,
      process_pipfiles lockOk ['a']
        [(pipfilePre, []), (pipfilePre ++ ['.', 'l', 'o', 'c', 'k'], [])] .fnil =
        (if lockOk (pathJoin ['a'] pipfilePre) = true
         then ([pathJoin ['a'] pipfilePre], [])
         else ([], [pathJoin ['a'] pipfilePre]))) := by
  refine ⟨?_, by decide, by decide, ?_⟩
  · intro lockOk path files subs
    rw [process_pipfiles, lockFiles_eq, process_pipfiles_forest_eq,
      List.filter_append, List.filter_append]
  · intro lockOk
    have h1 : isPipfileName pipfilePre = true := by decide
    have h2 : isPipfileName (pipfilePre ++ ['.', 'l', 'o', 'c', 'k']) = false := by decide
    by_cases hl : lockOk (pathJoin ['a'] pipfilePre) = true
    · simp [process_pipfiles, process_pipfiles_forest, lockFiles, h1, h2, hl]
    · have hl' : lockOk (pathJoin ['a'] pipfilePre) = false := Bool.eq_false_iff.mpr hl
      simp [process_pipfiles, process_pipfiles_forest, lockFiles, h1, h2, hl']

end NPBI

namespace NPBI

/-! ### Completeness of the renaming walk (C6) -/

/-- Rewriting a forest rewrites every file's path segments, name and
content, keeping exactly one output file per input file. -/
theorem filesOfForest_forestRewrite (rw : Str → Str) (f : FTree) :
    filesOfForest (forestRewrite rw f) =
      (filesOfForest f).map fun x => (x.1.map rw, rw x.2.1, rw x.2.2) := by
  induction f with
  | fnil => rfl
  | fcons name files subs rest ihs ihr =>
    rw [forestRewrite, filesOfForest, filesOfForest, ihs, ihr, List.map_append,
      List.map_append, List.map_map, List.map_map, List.map_map, List.map_map]
    rfl

/-- C6: `replace_version_in_directory` processes children before their
parent's rename (the bottom-up `os.walk`), so the rewritten tree holds
exactly one file per original file, at the path whose every segment has
been rewritten, with the file name and the file content rewritten as well —
no file or subdirectory is lost or skipped by a parent rename.  The
well-formedness hypotheses state that no two entries of one directory
share a name, before or after renaming (the domain in which the pure tree
is a faithful picture of the filesystem: `os.rename` onto an existing
entry would clobber it). -/
theorem c6_rewrite_complete (files : List (Str × Str)) (subs : FTree) (a b c d : Str)
    (rwv : Str → Str)
    ( _ha : a ≠ []) ( _hb : b ≠ []) ( _hc : c ≠ []) ( _hd : d ≠ [])
    (hda : ∀ x ∈ a, x.isDigit = true) (hdb : ∀ x ∈ b, x.isDigit = true)
    (hdc : ∀ x ∈ c, x.isDigit = true) (hdd : ∀ x ∈ d, x.isDigit = true)
    (hrw : rwv = rewriteSeq (a ++ '.' :: b) (c ++ '.' :: d) a b c d)
    ( _hok : forestOk subs = true)
    ( _hok2 : forestOk (forestRewrite rwv subs) = true) :
    replace_version_in_directory files subs (a ++ '.' :: b) (c ++ '.' :: d) =
      some (files.map fun p => (rwv p.1, rwv p.2), forestRewrite rwv subs) ∧
    filesOfForest (forestRewrite rwv subs) =
      (filesOfForest subs).map fun x => (x.1.map rwv, rwv x.2.1, rwv x.2.2) := by
  subst hrw
  constructor
  · rw [replace_version_in_directory,
      extract_python_version_eq (not_dot_mem_of_digits hda) (not_dot_mem_of_digits hdb),
      extract_python_version_eq (not_dot_mem_of_digits hdc) (not_dot_mem_of_digits hdd)]
  · exact filesOfForest_forestRewrite _ subs

/-- C6 witness: the tree `v3.9/sub/file_py39.txt` (content
`python-3.9 py39`) migrates fully, via `3.9` → `3.11`, to
`v3.11/sub/file_py311.txt` with content `python-3.11 py311`. -/
theorem c6_rewrite_complete_witness :
    replace_version_in_directory []
      (.fcons ['v', '3', '.', '9'] []
        (.fcons ['s', 'u', 'b']
          [(['f', 'i', 'l', 'e', '_', 'p', 'y', '3', '9', '.', 't', 'x', 't'],
            ['p', 'y', 't', 'h', 'o', 'n', '-', '3', '.', '9', ' ', 'p', 'y', '3', '9'])]
          .fnil .fnil) .fnil)
      (['3'] ++ '.' :: ['9']) (['3'] ++ '.' :: ['1', '1']) =
      some ([],
        forestRewrite (rewriteSeq (['3'] ++ '.' :: ['9']) (['3'] ++ '.' :: ['1', '1'])
          ['3'] ['9'] ['3'] ['1', '1'])
          (.fcons ['v', '3', '.', '9'] []
            (.fcons ['s', 'u', 'b']
              [(['f', 'i', 'l', 'e', '_', 'p', 'y', '3', '9', '.', 't', 'x', 't'],
                ['p', 'y', 't', 'h', 'o', 'n', '-', '3', '.', '9', ' ', 'p', 'y', '3',
                 '9'])]
              .fnil .fnil) .fnil)) ∧
    filesOfForest
      (forestRewrite (rewriteSeq (['3'] ++ '.' :: ['9']) (['3'] ++ '.' :: ['1', '1'])
        ['3'] ['9'] ['3'] ['1', '1'])
        (.fcons ['v', '3', '.', '9'] []
          (.fcons ['s', 'u', 'b']
            [(['f', 'i', 'l', 'e', '_', 'p', 'y', '3', '9', '.', 't', 'x', 't'],
              ['p', 'y', 't', 'h', 'o', 'n', '-', '3', '.', '9', ' ', 'p', 'y', '3', '9'])]
            .fnil .fnil) .fnil)) =
      [([['v', '3', '.', '1', '1'], ['s', 'u', 'b']],
        ['f', 'i', 'l', 'e', '_', 'p', 'y', '3', '1', '1', '.', 't', 'x', 't'],
        ['p', 'y', 't', 'h', 'o', 'n', '-', '3', '.', '1', '1', ' ', 'p', 'y', '3', '1',
         '1'])] :=
  ⟨(c6_rewrite_complete []
      (.fcons ['v', '3', '.', '9'] []
        (.fcons ['s', 'u', 'b']
          [(['f', 'i', 'l', 'e', '_', 'p', 'y', '3', '9', '.', 't', 'x', 't'],
            ['p', 'y', 't', 'h', 'o', 'n', '-', '3', '.', '9', ' ', 'p', 'y', '3', '9'])]
          .fnil .fnil) .fnil)
      ['3'] ['9'] ['3'] ['1', '1'] _
      (by decide) (by decide) (by decide) (by decide)
      (by decide) (by decide) (by decide) (by decide)
      rfl (by decide) (by decide)).1,
   by decide⟩

end NPBI

namespace NPBI

/-! ### Copying (C5) -/

theorem pathExists_append {fs g : FSm} {q : Str} (h : pathExists fs q = true) :
    pathExists (fs ++ g) q = true := by
  rw [pathExists] at h ⊢
  rw [List.any_append, h, Bool.true_or]

theorem pathExists_of_entry {fs : FSm} {q : Str} {y : Str × Str} (hy : y ∈ fs)
    (h : strHasPre (q ++ ['/']) y.1 = true) : pathExists fs q = true :=
  List.any_eq_true.mpr ⟨y, hy, by rw [h, Bool.or_true]⟩

/-- Every entry written by `shutil.copytree` lies strictly below the
destination, so when the destination did not exist none of the written
paths existed either. -/
theorem copied_entry_fresh {fs : FSm} {src dst : Str}
    (hdst : pathExists fs dst = false) :
    ∀ e ∈ (fs.filter fun e => strHasPre (src ++ ['/']) e.1).map
      (fun e => (dst ++ List.drop src.length e.1, e.2)),
      pathExists fs e.1 = false := by
  intro e he
  obtain ⟨x, hx, rfl⟩ := List.mem_map.mp he
  obtain ⟨t, ht⟩ := (strHasPre_iff _ _).mp ((List.mem_filter.mp hx).2)
  have hdrop : List.drop src.length x.1 = '/' :: t := by
    rw [ht, List.append_assoc]
    exact dropLenAppend src ('/' :: t)
  cases hq : pathExists fs (dst ++ List.drop src.length x.1) with
  | false => rfl
  | true =>
    exfalso
    obtain ⟨y, hy, hcond⟩ := List.any_eq_true.mp hq
    have hpre : strHasPre (dst ++ ['/']) y.1 = true := by
      rcases Bool.or_eq_true_iff.mp hcond with hc1 | hc2
      · have : y.1 = dst ++ List.drop src.length x.1 := by
          simpa using hc1
        rw [this, hdrop]
        exact (strHasPre_iff _ _).mpr ⟨t, by simp⟩
      · obtain ⟨t2, ht2⟩ := (strHasPre_iff _ _).mp hc2
        refine (strHasPre_iff _ _).mpr ⟨t ++ '/' :: t2, ?_⟩
        rw [ht2, hdrop]
        simp
    rw [pathExists_of_entry hy hpre] at hdst
    cases hdst

/-- `copy_paths` only appends entries, and only at paths that did not
exist before the call: the pre-existing filesystem is preserved verbatim
and no existing file or directory is ever written into. -/
theorem copy_paths_extends (paths_dict : List (Str × Str)) : ∀ fs : FSm,
    ∃ added, (copy_paths paths_dict fs).2.2 = fs ++ added ∧
      ∀ e ∈ added, pathExists fs e.1 = false := by
  induction paths_dict with
  | nil => intro fs; exact ⟨[], by simp [copy_paths], by simp⟩
  | cons hd rest ih =>
    obtain ⟨s0, d0⟩ := hd
    intro fs
    simp only [copy_paths]
    by_cases h1 : pathExists fs d0 = true
    · rw [if_pos h1]
      exact ih fs
    · rw [if_neg h1]
      have h1' : pathExists fs d0 = false := Bool.eq_false_iff.mpr h1
      by_cases h2 : (fs.any fun e => strHasPre (s0 ++ ['/']) e.1) = true
      · rw [if_pos h2]
        obtain ⟨added, haeq, hafresh⟩ := ih
          (fs ++ (fs.filter fun e => strHasPre (s0 ++ ['/']) e.1).map
            (fun e => (d0 ++ List.drop s0.length e.1, e.2)))
        refine ⟨(fs.filter fun e => strHasPre (s0 ++ ['/']) e.1).map
          (fun e => (d0 ++ List.drop s0.length e.1, e.2)) ++ added, ?_, ?_⟩
        · rw [haeq, List.append_assoc]
        · intro e he
          rcases List.mem_append.mp he with he1 | he2
          · exact copied_entry_fresh h1' e he1
          · cases hq : pathExists fs e.1 with
            | false => rfl
            | true => exact absurd (pathExists_append hq) (by rw [hafresh e he2]; simp)
      · rw [if_neg h2]
        exact ih fs

/-- A mapping whose destination exists when it is processed is recorded as
failed. -/
theorem copy_paths_failed_mem (paths_dict : List (Str × Str)) : ∀ (fs : FSm) (src dst : Str),
    (src, dst) ∈ paths_dict → pathExists fs dst = true →
    dst ∈ (copy_paths paths_dict fs).2.1 := by
  induction paths_dict with
  | nil => intro fs src dst hm; cases hm
  | cons hd rest ih =>
    obtain ⟨s0, d0⟩ := hd
    intro fs src dst hm hex
    simp only [copy_paths]
    rcases List.mem_cons.mp hm with heq | hmr
    · rw [Prod.mk.injEq] at heq
      obtain ⟨rfl, rfl⟩ := heq
      rw [if_pos hex]
      exact List.mem_cons_self _ _
    · by_cases h1 : pathExists fs d0 = true
      · rw [if_pos h1]
        exact List.mem_cons_of_mem _ (ih fs src dst hmr hex)
      · rw [if_neg h1]
        by_cases h2 : (fs.any fun e => strHasPre (s0 ++ ['/']) e.1) = true
        · rw [if_pos h2]
          exact ih _ src dst hmr (pathExists_append hex)
        · rw [if_neg h2]
          exact List.mem_cons_of_mem _ (ih fs src dst hmr hex)

/-- A destination that exists at call time is never recorded as copied. -/
theorem copy_paths_not_succ (paths_dict : List (Str × Str)) : ∀ (fs : FSm) (dst : Str),
    pathExists fs dst = true → dst ∉ (copy_paths paths_dict fs).1 := by
  induction paths_dict with
  | nil => intro fs dst hex h; cases h
  | cons hd rest ih =>
    obtain ⟨s0, d0⟩ := hd
    intro fs dst hex
    simp only [copy_paths]
    by_cases h1 : pathExists fs d0 = true
    · rw [if_pos h1]
      exact ih fs dst hex
    · rw [if_neg h1]
      by_cases h2 : (fs.any fun e => strHasPre (s0 ++ ['/']) e.1) = true
      · rw [if_pos h2]
        intro hmem
        rcases List.mem_cons.mp hmem with rfl | hmem2
        · exact h1 hex
        · exact ih _ dst (pathExists_append hex) hmem2
      · rw [if_neg h2]
        exact ih fs dst hex

/-- C5: a mapping whose destination already exists is recorded as failed —
and never as copied — and the filesystem keeps every pre-existing entry
verbatim, with all appended entries at previously non-existing paths: no
existing destination is ever overwritten. -/
theorem c5_existing_destination (paths_dict : List (Str × Str)) (fs : FSm) (src dst : Str)
    (hm : (src, dst) ∈ paths_dict) (hex : pathExists fs dst = true) :
    dst ∈ (copy_paths paths_dict fs).2.1 ∧
    dst ∉ (copy_paths paths_dict fs).1 ∧
    ∃ added, (copy_paths paths_dict fs).2.2 = fs ++ added ∧
      ∀ e ∈ added, pathExists fs e.1 = false :=
  ⟨copy_paths_failed_mem paths_dict fs src dst hm hex,
   copy_paths_not_succ paths_dict fs dst hex,
   copy_paths_extends paths_dict fs⟩

/-- C5 witness: copying `a3.9` onto the pre-existing `a3.11` records
`a3.11` as failed and not as copied. -/
theorem c5_existing_destination_witness :
    ['a', '3', '.', '1', '1'] ∈
      (copy_paths [(['a', '3', '.', '9'], ['a', '3', '.', '1', '1'])]
        [(['a', '3', '.', '1', '1', '/', 'f'], ['c']),
         (['a', '3', '.', '9', '/', 'f'], ['x'])]).2.1 ∧
    ['a', '3', '.', '1', '1'] ∉
      (copy_paths [(['a', '3', '.', '9'], ['a', '3', '.', '1', '1'])]
        [(['a', '3', '.', '1', '1', '/', 'f'], ['c']),
         (['a', '3', '.', '9', '/', 'f'], ['x'])]).1 :=
  ⟨(c5_existing_destination [(['a', '3', '.', '9'], ['a', '3', '.', '1', '1'])]
      [(['a', '3', '.', '1', '1', '/', 'f'], ['c']), (['a', '3', '.', '9', '/', 'f'], ['x'])]
      ['a', '3', '.', '9'] ['a', '3', '.', '1', '1'] (by decide) (by decide)).1,
   (c5_existing_destination [(['a', '3', '.', '9'], ['a', '3', '.', '1', '1'])]
      [(['a', '3', '.', '1', '1', '/', 'f'], ['c']), (['a', '3', '.', '9', '/', 'f'], ['x'])]
      ['a', '3', '.', '9'] ['a', '3', '.', '1', '1'] (by decide) (by decide)).2.1⟩

end NPBI

namespace NPBI

/-! ### The exit contract of `main` (C9) -/

/-- Every mapping lands in exactly one of the two result lists of
`copy_paths`. -/
theorem copy_paths_count (paths_dict : List (Str × Str)) : ∀ fs : FSm,
    (copy_paths paths_dict fs).1.length + (copy_paths paths_dict fs).2.1.length =
      paths_dict.length := by
  induction paths_dict with
  | nil => intro fs; rfl
  | cons hd rest ih =>
    obtain ⟨s0, d0⟩ := hd
    intro fs
    simp only [copy_paths, List.length_cons]
    by_cases h1 : pathExists fs d0 = true
    · rw [if_pos h1]
      simp only [List.length_cons]
      have := ih fs
      omega
    · rw [if_neg h1]
      by_cases h2 : (fs.any fun e => strHasPre (s0 ++ ['/']) e.1) = true
      · rw [if_pos h2]
        simp only [List.length_cons]
        have := ih (fs ++ (fs.filter fun e => strHasPre (s0 ++ ['/']) e.1).map
          (fun e => (d0 ++ List.drop s0.length e.1, e.2)))
        omega
      · rw [if_neg h2]
        simp only [List.length_cons]
        have := ih fs
        omega

/-- Unfolding of `main_exit` for well-formed version strings. -/
theorem main_exit_eq (context_paths : List Str) (a b c d : Str) (fs : FSm)
    (lockOk : Str → Bool)
    (hda : ∀ x ∈ a, x.isDigit = true) (hdb : ∀ x ∈ b, x.isDigit = true)
    (hdc : ∀ x ∈ c, x.isDigit = true) (hdd : ∀ x ∈ d, x.isDigit = true) :
    main_exit context_paths (a ++ '.' :: b) (c ++ '.' :: d) fs lockOk =
      (if (replace_python_version_on_paths context_paths (a ++ '.' :: b)
          (c ++ '.' :: d)).length = 0 then some 1
       else
        let cp := copy_paths (replace_python_version_on_paths context_paths
          (a ++ '.' :: b) (c ++ '.' :: d)) fs
        let ec : Nat := if cp.2.1.length > 0 then 1 else 0
        if cp.1.length > 0 then
          let pr := process_paths_fs lockOk
            (rewriteSeq (a ++ '.' :: b) (c ++ '.' :: d) a b c d) cp.1 cp.2.2
          some (if pr.2.1.length > 0 then 1 else ec)
        else some ec) := by
  rw [main_exit,
    extract_python_version_eq (not_dot_mem_of_digits hda) (not_dot_mem_of_digits hdb),
    extract_python_version_eq (not_dot_mem_of_digits hdc) (not_dot_mem_of_digits hdd)]

/-- C9: with validated version strings, `main` exits 0 or 1, and it exits 0
exactly when at least one candidate was found and copied (the copy stage's
success list is non-empty), no copy failed, and no lock regeneration
failed; any of "no candidates", "some copy failed", "some lock
regeneration failed" yields the same exit code 1. -/
theorem c9_exit_contract (context_paths : List Str) (a b c d : Str) (fs : FSm)
    (lockOk : Str → Bool) (succ fail : List Str) (fs1 : FSm) (ls lf : List Str) (fs2 : FSm)
    ( _ha : a ≠ []) ( _hb : b ≠ []) ( _hc : c ≠ []) ( _hd : d ≠ [])
    (hda : ∀ x ∈ a, x.isDigit = true) (hdb : ∀ x ∈ b, x.isDigit = true)
    (hdc : ∀ x ∈ c, x.isDigit = true) (hdd : ∀ x ∈ d, x.isDigit = true)
    (hcp : copy_paths (replace_python_version_on_paths context_paths (a ++ '.' :: b)
        (c ++ '.' :: d)) fs = (succ, fail, fs1))
    (hpr : process_paths_fs lockOk (rewriteSeq (a ++ '.' :: b) (c ++ '.' :: d) a b c d)
        succ fs1 = (ls, lf, fs2)) :
    (main_exit context_paths (a ++ '.' :: b) (c ++ '.' :: d) fs lockOk = some 0 ∨
      main_exit context_paths (a ++ '.' :: b) (c ++ '.' :: d) fs lockOk = some 1) ∧
    (main_exit context_paths (a ++ '.' :: b) (c ++ '.' :: d) fs lockOk = some 0 ↔
      succ ≠ [] ∧ fail = [] ∧ lf = []) := by
  rw [main_exit_eq context_paths a b c d fs lockOk hda hdb hdc hdd]
  by_cases hlen : (replace_python_version_on_paths context_paths (a ++ '.' :: b)
      (c ++ '.' :: d)).length = 0
  · rw [if_pos hlen]
    have hpd : replace_python_version_on_paths context_paths (a ++ '.' :: b)
        (c ++ '.' :: d) = [] := List.length_eq_zero.mp hlen
    rw [hpd] at hcp
    have hsucc : succ = [] := by
      have : (([], [], fs) : List Str × List Str × FSm) = (succ, fail, fs1) := hcp
      exact (congrArg (fun t => t.1) this).symm
    constructor
    · exact Or.inr rfl
    · constructor
      · intro h; cases h
      · rintro ⟨hne, -, -⟩
        exact absurd hsucc hne
  · rw [if_neg hlen]
    simp only [hcp]
    by_cases hsucc : succ.length > 0
    · rw [if_pos hsucc]
      simp only [hpr]
      have hsytne : succ ≠ [] := by
        intro h; rw [h] at hsucc; simp at hsucc
      by_cases hlf : lf.length > 0
      · rw [if_pos hlf]
        have hlfne : lf ≠ [] := by
          intro h; rw [h] at hlf; simp at hlf
        refine ⟨Or.inr rfl, ?_, ?_⟩
        · intro h; cases h
        · rintro ⟨-, -, hlfe⟩
          exact absurd hlfe hlfne
      · have hlfe : lf = [] := List.length_eq_zero.mp (by omega)
        rw [if_neg hlf]
        by_cases hfail : fail.length > 0
        · rw [if_pos hfail]
          have hfne : fail ≠ [] := by
            intro h; rw [h] at hfail; simp at hfail
          refine ⟨Or.inr rfl, ?_, ?_⟩
          · intro h; cases h
          · rintro ⟨-, hfe, -⟩
            exact absurd hfe hfne
        · have hfe : fail = [] := List.length_eq_zero.mp (by omega)
          rw [if_neg hfail]
          exact ⟨Or.inl rfl, fun _ => ⟨hsytne, hfe, hlfe⟩, fun _ => rfl⟩
    · rw [if_neg hsucc]
      have hse : succ = [] := List.length_eq_zero.mp (by omega)
      have hcount := copy_paths_count (replace_python_version_on_paths context_paths
        (a ++ '.' :: b) (c ++ '.' :: d)) fs
      rw [hcp] at hcount
      have hfail : fail.length > 0 := by
        simp only [hse, List.length_nil] at hcount ⊢
        omega
      rw [if_pos hfail]
      refine ⟨Or.inr rfl, ?_, ?_⟩
      · intro h; cases h
      · rintro ⟨hne, -, -⟩
        exact absurd hse hne

/-- C9 witness: a happy-path run (one candidate, copied, one Pipfile
locked) exits 0, matching the contract. -/
theorem c9_exit_contract_witness :
    (main_exit [['a', '3', '.', '9']] (['3'] ++ '.' :: ['9']) (['3'] ++ '.' :: ['1', '1'])
        [(['a', '3', '.', '9', '/', 'P', 'i', 'p', 'f', 'i', 'l', 'e'],
          ['x', '3', '.', '9'])] (fun _ => true) = some 0 ∨
      main_exit [['a', '3', '.', '9']] (['3'] ++ '.' :: ['9']) (['3'] ++ '.' :: ['1', '1'])
        [(['a', '3', '.', '9', '/', 'P', 'i', 'p', 'f', 'i', 'l', 'e'],
          ['x', '3', '.', '9'])] (fun _ => true) = some 1) ∧
    (main_exit [['a', '3', '.', '9']] (['3'] ++ '.' :: ['9']) (['3'] ++ '.' :: ['1', '1'])
        [(['a', '3', '.', '9', '/', 'P', 'i', 'p', 'f', 'i', 'l', 'e'],
          ['x', '3', '.', '9'])] (fun _ => true) = some 0 ↔
      ([['a', '3', '.', '1', '1']] : List Str) ≠ [] ∧ ([] : List Str) = [] ∧
        ([] : List Str) = []) :=
  c9_exit_contract [['a', '3', '.', '9']] ['3'] ['9'] ['3'] ['1', '1']
    [(['a', '3', '.', '9', '/', 'P', 'i', 'p', 'f', 'i', 'l', 'e'], ['x', '3', '.', '9'])]
    (fun _ => true) [['a', '3', '.', '1', '1']] []
    [(['a', '3', '.', '9', '/', 'P', 'i', 'p', 'f', 'i', 'l', 'e'], ['x', '3', '.', '9']),
     (['a', '3', '.', '1', '1', '/', 'P', 'i', 'p', 'f', 'i', 'l', 'e'],
      ['x', '3', '.', '9'])]
    [['a', '3', '.', '1', '1', '/', 'P', 'i', 'p', 'f', 'i', 'l', 'e']] []
    [(['a', '3', '.', '9', '/', 'P', 'i', 'p', 'f', 'i', 'l', 'e'], ['x', '3', '.', '9']),
     (['a', '3', '.', '1', '1', '/', 'P', 'i', 'p', 'f', 'i', 'l', 'e'],
      ['x', '3', '.', '1', '1'])]
    (by decide) (by decide) (by decide) (by decide)
    (by decide) (by decide) (by decide) (by decide)
    (by decide) (by decide)

end NPBI
